import Mathlib

/-!
Verification of the repository-resolution and artifact-fetch core of
GradleFileDownloader against its design specification.

The Python source is shallowly embedded: Python strings are `List Char`,
pure string manipulation becomes Lean functions, and network / filesystem /
subprocess effects become explicit oracles (environment records) together
with an explicit trace state.  All definitions follow `core.py`,
`utils.py` and `decompiler.py`; the only definitions taken from the
specification instead of the source are explicitly marked in their doc
comments.
-/

/-! ## String primitives (Python strings as lists of characters) -/

/-- Number of occurrences of a character, mirroring Python `s.count(c)`
for a single-character argument. -/
def countChar (c : Char) : List Char → Nat
  | [] => 0
  | x :: xs => (if x = c then 1 else 0) + countChar c xs

/-- Character membership as a Bool, mirroring Python `c in s`. -/
def containsChar (c : Char) (s : List Char) : Bool :=
  s.any (fun x => x = c)

/-- Split at every occurrence of a character, mirroring Python
`s.split(c)` for a single-character separator: the result always has
`countChar c s + 1` parts and empty parts are kept. -/
def splitOnChar (c : Char) : List Char → List (List Char)
  | [] => [[]]
  | x :: xs =>
    if x = c then [] :: splitOnChar c xs
    else
      match splitOnChar c xs with
      | [] => [[x]]
      | y :: ys => (x :: y) :: ys

/-- Join with a single-character separator, mirroring Python
`c.join(parts)`. -/
def joinWith (c : Char) : List (List Char) → List Char
  | [] => []
  | [x] => x
  | x :: y :: ys => x ++ c :: joinWith c (y :: ys)

/-! ## Dependency identifier parser (`RepositoryManager.parse_dependency`) -/

/-- A Maven coordinate as produced by the parser. -/
structure Coordinate where
  group : List Char
  artifact : List Char
  version : List Char
  deriving DecidableEq, Repr

/-- Result of `parse_dependency`: either a coordinate or the typed
invalid-format failure (the `ValueError` raised and caught by every
caller in the source). -/
inductive ParseResult where
  | ok (c : Coordinate)
  | invalidFormat
  deriving DecidableEq, Repr

/-- Embedding of `RepositoryManager.parse_dependency` from `core.py`.
Two colons: split into the three fields.  One colon: split the left side
at the last dot into group and artifact, failing when the left side has
no dot.  Any other colon count fails.  The wildcard match arms are
unreachable because `splitOnChar` always returns `countChar + 1` parts. -/
def parse_dependency (dependency : List Char) : ParseResult :=
  if countChar ':' dependency = 2 then
    match splitOnChar ':' dependency with
    | [group, artifact, version] => .ok ⟨group, artifact, version⟩
    | _ => .invalidFormat
  else if countChar ':' dependency = 1 then
    match splitOnChar ':' dependency with
    | [group_artifact, version] =>
      if containsChar '.' group_artifact then
        let parts := splitOnChar '.' group_artifact
        .ok ⟨joinWith '.' parts.dropLast, parts.getLastD [], version⟩
      else .invalidFormat
    | _ => .invalidFormat
  else .invalidFormat

/-- The left side of an input relative to its first colon, used to state
the parser failure condition for one-colon inputs. -/
def leftOfColon (s : List Char) : List Char :=
  s.takeWhile (fun x => x ≠ ':')

/-! ## Standalone validator (`utils.validate_dependency_format`) -/

/-- Whitespace predicate used by Python `str.strip()` (ASCII range). -/
def pyIsSpace (c : Char) : Bool :=
  c = ' ' ∨ c = '\t' ∨ c = '\n' ∨ c = '\r' ∨ c = '\x0b' ∨ c = '\x0c'

/-- Embedding of Python `s.strip()`. -/
def pyStrip (s : List Char) : List Char :=
  ((s.dropWhile pyIsSpace).reverse.dropWhile pyIsSpace).reverse

/-- Embedding of `utils.validate_dependency_format`: two colon-separated
parts need a dot on the left and a non-blank version; three parts need
all of them non-blank after stripping; anything else is invalid. -/
def validate_dependency_format (dependency : List Char) : Bool :=
  if dependency.isEmpty then false
  else
    match splitOnChar ':' dependency with
    | [group_artifact, version] =>
      containsChar '.' group_artifact && !(pyStrip version).isEmpty
    | [group, artifact, version] =>
      !(pyStrip group).isEmpty && !(pyStrip artifact).isEmpty &&
        !(pyStrip version).isEmpty
    | _ => false

/-! ## URL construction (`get_artifact_url` and the `urljoin` it calls) -/

/-- Embedding of Python `s.replace(old, new)` for single characters, as
used for `group.replace(".", "/")`. -/
def pyReplace (old new : Char) (s : List Char) : List Char :=
  s.map (fun c => if c = old then new else c)

/-- Characters allowed after the first character of a URL scheme
(`scheme_chars` of `urllib.parse`). -/
def isSchemeChar (c : Char) : Bool :=
  (c.isAlpha || c.isDigit) || c = '+' || c = '-' || c = '.'

/-- Scan for a leading scheme delimiter: the characters before the first
colon, provided all of them are valid scheme characters; mirrors the
`url.find(':')` plus character check of `urlsplit`. -/
def schemeScan : List Char → Option (List Char × List Char)
  | [] => none
  | c :: cs =>
    if c = ':' then some ([], cs)
    else if isSchemeChar c then
      match schemeScan cs with
      | some (pre, rest) => some (c :: pre, rest)
      | none => none
    else none

/-- Scheme extraction of `urlsplit`: a non-empty all-scheme-character
prefix starting with a letter and followed by a colon is the scheme,
lower-cased; otherwise the URL has no scheme of its own. -/
def splitScheme (url : List Char) : Option (List Char) × List Char :=
  match schemeScan url with
  | some (pre, rest) =>
    match pre with
    | [] => (none, url)
    | c :: _ =>
      if c.isAlpha then (some (pre.map Char.toLower), rest) else (none, url)
  | none => (none, url)

/-- Network-location extraction of `urlsplit` (query and fragment
delimiters excluded, see `urljoin`): after a leading double slash the
netloc runs until the next slash. -/
def splitNetloc (rest : List Char) : List Char × List Char :=
  if rest.take 2 = ['/', '/'] then
    ((rest.drop 2).takeWhile (fun c => c ≠ '/'),
     (rest.drop 2).dropWhile (fun c => c ≠ '/'))
  else ([], rest)

/-- The (scheme, netloc, path) triple of a split URL. -/
structure UrlParts where
  scheme : List Char
  netloc : List Char
  path : List Char
  deriving DecidableEq, Repr

/-- Model of `urlparse(url, default_scheme)` restricted to the scheme,
netloc and path components. -/
def urlparseModel (url : List Char) (defaultScheme : List Char) : UrlParts :=
  match splitScheme url with
  | (some s, rest) => ⟨s, (splitNetloc rest).1, (splitNetloc rest).2⟩
  | (none, _) => ⟨defaultScheme, (splitNetloc url).1, (splitNetloc url).2⟩

/-- The `uses_relative` scheme list of `urllib.parse`. -/
def uses_relative : List (List Char) :=
  ["", "ftp", "http", "gopher", "nntp", "imap", "wais", "file", "https",
   "shttp", "mms", "prospero", "rtsp", "rtsps", "rtspu", "sftp", "svn",
   "svn+ssh", "ws", "wss"].map String.toList

/-- The `uses_netloc` scheme list of `urllib.parse`. -/
def uses_netloc : List (List Char) :=
  ["", "ftp", "http", "gopher", "nntp", "telnet", "imap", "wais", "file",
   "mms", "https", "shttp", "snews", "prospero", "rtsp", "rtsps", "rtspu",
   "rsync", "svn", "svn+ssh", "sftp", "nfs", "git", "git+ssh", "ws",
   "wss"].map String.toList

/-- Model of `urlunsplit` on (scheme, netloc, path): reinstate the
double slash when a netloc is present or the scheme uses one, inserting
a slash before a relative path. -/
def urlunsplitModel (scheme netloc path : List Char) : List Char :=
  let url :=
    if netloc ≠ [] ∨
        (scheme ≠ [] ∧ scheme ∈ uses_netloc ∧ path.take 2 ≠ ['/', '/']) then
      '/' :: '/' ::
        (netloc ++ (if path ≠ [] ∧ path.head? ≠ some '/' then '/' :: path else path))
    else path
  if scheme ≠ [] then scheme ++ ':' :: url else url

/-- The dot-segment resolution loop of `urljoin`: a `..` segment pops
the resolved list (ignored when it is empty), a `.` segment is skipped,
anything else is appended. -/
def resolveSegments (resolved : List (List Char)) :
    List (List Char) → List (List Char)
  | [] => resolved
  | seg :: rest =>
    if seg = ['.', '.'] then resolveSegments resolved.dropLast rest
    else if seg = ['.'] then resolveSegments resolved rest
    else resolveSegments (resolved ++ [seg]) rest

/-- The `segments[1:-1] = filter(None, segments[1:-1])` step of
`urljoin`: drop empty segments, keeping the first and last. -/
def filterInterior : List (List Char) → List (List Char)
  | [] => []
  | [s] => [s]
  | first :: rest =>
    first :: ((rest.dropLast.filter (fun s => s ≠ [])) ++ [rest.getLastD []])

/-- The `base_parts` computation of `urljoin`: split the base path on
slashes and drop the last part when it is not empty (a file component
does not take part in relative resolution). -/
def basePathParts (bpath : List Char) : List (List Char) :=
  let parts := splitOnChar '/' bpath
  if parts.getLastD [] ≠ [] then parts.dropLast else parts

/-- The netloc-inheritance step of `urljoin`: a relative reference of a
scheme that uses a network location inherits the netloc of the base. -/
def mergeNetloc (b r : UrlParts) : List Char :=
  if r.scheme ∈ uses_netloc then b.netloc else r.netloc

/-- The path-merging arm of `urljoin`: compute the segment list (base
directory merged with the reference path, or the reference path alone
when it is root-relative), filter redundant interior empty segments,
resolve dot segments, restore a trailing slash after a final dot
segment, and reassemble the URL. -/
def urljoinMerge (scheme netloc bpath rpath : List Char) : List Char :=
  let segments :=
    if rpath.head? = some '/' then splitOnChar '/' rpath
    else filterInterior (basePathParts bpath ++ splitOnChar '/' rpath)
  let resolved := resolveSegments [] segments
  let resolved2 :=
    if segments.getLastD [] = ['.'] ∨ segments.getLastD [] = ['.', '.']
    then resolved ++ [[]] else resolved
  let path := joinWith '/' resolved2
  urlunsplitModel scheme netloc (if path = [] then ['/'] else path)

/-- Model of `urllib.parse.urljoin` (CPython 3.11), following its source
step for step on the scheme, netloc and path components: parse both
URLs (the reference inheriting the base scheme), return the reference
unchanged for a foreign or non-relative scheme, keep a reference netloc
wholesale (`mergeNetloc` holds the netloc-inheritance step), and
otherwise merge and normalise the paths (`urljoinMerge`).  Query (`?`),
fragment (`#`) and parameter (`;`) delimiters are not modelled — they
are treated as ordinary path characters — and neither is the stripping
of control characters, tabs and newlines performed by `urlsplit`, so
the model agrees with the library only on URLs free of those
characters (`urlSafe` below); all URLs this program builds from the
theorem hypotheses are.  The model was checked against CPython 3.11 on
an exhaustive grid and a randomized fuzz of such URLs. -/
def urljoin (base url : List Char) : List Char :=
  if base = [] then url
  else if url = [] then base
  else
    let b := urlparseModel base []
    let r := urlparseModel url b.scheme
    if r.scheme ≠ b.scheme ∨ r.scheme ∉ uses_relative then url
    else if r.scheme ∈ uses_netloc ∧ r.netloc ≠ [] then
      urlunsplitModel r.scheme r.netloc r.path
    else if r.path = [] then urlunsplitModel r.scheme (mergeNetloc b r) b.path
    else urljoinMerge r.scheme (mergeNetloc b r) b.path r.path

/-- A character the `urljoin` model treats exactly like the library: not
a query, fragment or parameter delimiter, and not one of the control
characters (or the space, stripped when leading) that `urlsplit`
removes before parsing. -/
def urlSafeChar (c : Char) : Bool :=
  decide (32 < c.toNat) && !(c = '?') && !(c = '#') && !(c = ';')

/-- A string on which the `urljoin` model agrees with the library:
every character is `urlSafeChar`. -/
def urlSafe (s : List Char) : Prop := ∀ c ∈ s, urlSafeChar c = true

instance (s : List Char) : Decidable (urlSafe s) :=
  inferInstanceAs (Decidable (∀ c ∈ s, urlSafeChar c = true))

/-- The optional classifier part of a file name: `-classifier` when a
classifier is given, nothing otherwise (the `if classifier:` branch of
`get_artifact_url`). -/
def classifierPart : Option (List Char) → List Char
  | some c => '-' :: c
  | none => []

/-- Embedding of `RepositoryManager.get_artifact_url` from `core.py`:
`urljoin(repo_url, group_path/artifact/version/filename)` where
`filename` is `artifact-version[-classifier].extension`. -/
def get_artifact_url (repo_url group artifact version : List Char)
    (classifier : Option (List Char)) (extension : List Char) : List Char :=
  let group_path := pyReplace '.' '/' group
  let filename :=
    artifact ++ '-' :: version ++ classifierPart classifier ++ '.' :: extension
  urljoin repo_url
    (group_path ++ '/' :: artifact ++ '/' :: version ++ '/' :: filename)

/-! ## Existence check (`check_artifact_exists`) -/

/-- Outcome of the HEAD request issued by `check_artifact_exists`: a
response with some status code, or a raised `requests.RequestException`
(timeout, DNS failure, connection refused, ...). -/
inductive HeadResult where
  | response (status : Nat)
  | requestException
  deriving DecidableEq, Repr

/-- Embedding of `RepositoryManager.check_artifact_exists`: a status in
[200, 400) means the artifact is present; a request exception is caught
and reported as absence. -/
def check_artifact_exists : HeadResult → Bool
  | .response status => decide (200 ≤ status) && decide (status < 400)
  | .requestException => false

/-! ## Local paths (`os.path.join` on POSIX separators) -/

/-- One step of `os.path.join` (POSIX): an absolute component restarts
the path, a component after a trailing separator or an empty path is
appended bare, anything else is appended behind a separator. -/
def pyJoin2 (path comp : List Char) : List Char :=
  if comp.head? = some '/' then comp
  else if path = [] ∨ path.getLast? = some '/' then path ++ comp
  else path ++ '/' :: comp

/-- Embedding of `os.path.join(first, *rest)` on POSIX separators. -/
def pyJoin (first : List Char) (rest : List (List Char)) : List Char :=
  rest.foldl pyJoin2 first

/-! ## The download loops (`download_sources`, `download_binary`) -/

/-- Network oracle for one `RepositoryManager` session: the outcome of
the HEAD request for each URL and whether the streaming GET performed by
`download_file` succeeds for each URL. -/
structure NetEnv where
  headOf : List Char → HeadResult
  getOk : List Char → Bool

/-- Observable effects of a run: URLs passed to `download_file` in
order, and the local paths whose files were written. -/
structure Trace where
  downloads : List (List Char)
  writes : List (List Char)
  deriving DecidableEq, Repr

/-- Embedding of `RepositoryManager.download_file`: attempt the GET on
`url`; on success the file at `output_path` is written and `True` is
returned, on any failure (caught broadly in the source) `False` is
returned. -/
def download_file (env : NetEnv) (url output_path : List Char) (tr : Trace) :
    Bool × Trace :=
  if env.getOk url then
    (true, ⟨tr.downloads ++ [url], tr.writes ++ [output_path]⟩)
  else
    (false, ⟨tr.downloads ++ [url], tr.writes⟩)

/-- The classifier string of a sources artifact. -/
def sourcesClassifier : List Char := "sources".toList

/-- The fixed extension used by the download procedures. -/
def jarExt : List Char := "jar".toList

/-- URL of the sources JAR of a coordinate at one repository, as built
inside `download_sources`. -/
def sourcesUrl (repo group artifact version : List Char) : List Char :=
  get_artifact_url repo group artifact version (some sourcesClassifier) jarExt

/-- URL of the binary JAR of a coordinate at one repository, as built
inside `download_binary`. -/
def binaryUrl (repo group artifact version : List Char) : List Char :=
  get_artifact_url repo group artifact version none jarExt

/-- Local output path computed by `download_sources`:
`os.path.join(output_dir, group.replace(".", os.sep), artifact, version,
artifact-version-sources.jar)`. -/
def sourcesOutPath (output_dir group artifact version : List Char) : List Char :=
  pyJoin output_dir
    [pyReplace '.' '/' group, artifact, version,
     artifact ++ '-' :: version ++ "-sources.jar".toList]

/-- Local output path computed by `download_binary`. -/
def binaryOutPath (output_dir group artifact version : List Char) : List Char :=
  pyJoin output_dir
    [pyReplace '.' '/' group, artifact, version,
     artifact ++ '-' :: version ++ ".jar".toList]

/-- The repository loop of `download_sources`: probe each repository in
order with the existence check; at the first hit attempt the download
and return its path on success, otherwise keep iterating. -/
def sourcesLoop (env : NetEnv) (group artifact version output_dir : List Char) :
    List (List Char) → Trace → Option (List Char) × Trace
  | [], tr => (none, tr)
  | repo :: rest, tr =>
    let url := sourcesUrl repo group artifact version
    if check_artifact_exists (env.headOf url) then
      let output_path := sourcesOutPath output_dir group artifact version
      match download_file env url output_path tr with
      | (true, tr') => (some output_path, tr')
      | (false, tr') => sourcesLoop env group artifact version output_dir rest tr'
    else sourcesLoop env group artifact version output_dir rest tr

/-- The repository loop of `download_binary`. -/
def binaryLoop (env : NetEnv) (group artifact version output_dir : List Char) :
    List (List Char) → Trace → Option (List Char) × Trace
  | [], tr => (none, tr)
  | repo :: rest, tr =>
    let url := binaryUrl repo group artifact version
    if check_artifact_exists (env.headOf url) then
      let output_path := binaryOutPath output_dir group artifact version
      match download_file env url output_path tr with
      | (true, tr') => (some output_path, tr')
      | (false, tr') => binaryLoop env group artifact version output_dir rest tr'
    else binaryLoop env group artifact version output_dir rest tr

/-- Embedding of `RepositoryManager.download_sources`: parse the
dependency (an invalid format is caught and yields `None`), then walk
the configured repositories in order. -/
def download_sources (env : NetEnv) (repositories : List (List Char))
    (dependency output_dir : List Char) (tr : Trace) :
    Option (List Char) × Trace :=
  match parse_dependency dependency with
  | .invalidFormat => (none, tr)
  | .ok c => sourcesLoop env c.group c.artifact c.version output_dir repositories tr

/-- Embedding of `RepositoryManager.download_binary`. -/
def download_binary (env : NetEnv) (repositories : List (List Char))
    (dependency output_dir : List Char) (tr : Trace) :
    Option (List Char) × Trace :=
  match parse_dependency dependency with
  | .invalidFormat => (none, tr)
  | .ok c => binaryLoop env c.group c.artifact c.version output_dir repositories tr

/-! ## Version listing (`find_available_versions`) -/

/-- What one repository contributes to the version listing: either the
metadata request fails (non-200 status, network error, or malformed
XML — all logged and skipped in the source), or it yields the text
nodes of `versioning/versions/version` in document order. -/
inductive RepoMeta where
  | unavailable
  | metadata (versions : List (List Char))
  deriving DecidableEq, Repr

/-- The inner accumulation of `find_available_versions`: each reported
version text is appended when it is non-empty (`if version.text`) and
not yet collected (`not in versions`). -/
def addVersions (acc : List (List Char)) : List (List Char) → List (List Char)
  | [] => acc
  | v :: vs => addVersions (if v ≠ [] ∧ v ∉ acc then acc ++ [v] else acc) vs

/-- The repository loop of `find_available_versions`: failing
repositories contribute nothing. -/
def collectVersions (acc : List (List Char)) : List RepoMeta → List (List Char)
  | [] => acc
  | .unavailable :: rs => collectVersions acc rs
  | .metadata vs :: rs => collectVersions (addVersions acc vs) rs

/-- Lexicographic comparison of strings by character code, the order
Python `sorted` uses on `str`. -/
def lexLe : List Char → List Char → Bool
  | [], _ => true
  | _ :: _, [] => false
  | x :: xs, y :: ys => if x = y then lexLe xs ys else decide (x < y)

/-- The descending string order of `sorted(versions, reverse=True)`. -/
def descOrder (a b : List Char) : Prop := lexLe b a = true

instance : DecidableRel descOrder := fun a b => by
  unfold descOrder; infer_instance

/-- Embedding of `RepositoryManager.find_available_versions`: collect
the version strings of every reachable repository in order, skipping
duplicates and empty texts, then sort descending by string order
(`sorted(versions, reverse=True)`). -/
def find_available_versions (repositories : List RepoMeta) : List (List Char) :=
  List.insertionSort descOrder (collectVersions [] repositories)

/-- Numeric value of a digit string, used only to express what a
semantically newer version is. -/
def digitsVal (s : List Char) : Nat :=
  s.foldl (fun acc c => acc * 10 + (c.toNat - 48)) 0

/-- Dot-separated numeric components of a version string. -/
def semanticParts (s : List Char) : List Nat :=
  (splitOnChar '.' s).map digitsVal

/-- Lexicographic strictly-greater on numeric component lists. -/
def natListGT : List Nat → List Nat → Bool
  | [], _ => false
  | _ :: _, [] => true
  | x :: xs, y :: ys => if x = y then natListGT xs ys else decide (y < x)

/-- Modelled from the spec: the specification orders versions by a
"lexicographic-then-semantic" recency with the newest first; this is the
usual semantic comparison of dot-separated numeric components, under
which `10.0` is newer than `9.0`. -/
def semanticallyNewer (a b : List Char) : Bool :=
  natListGT (semanticParts a) (semanticParts b)

/-! ## Decompilation fallback (`decompiler.py`) -/

/-- Result of a Python call as seen by its caller: a value, or an
exception propagating out. -/
inductive PyResult (α : Type) where
  | ok (a : α)
  | exn
  deriving DecidableEq, Repr

/-- Outcome of the CFR decompiler subprocess run inside
`decompile_jar`. -/
inductive CfrRun where
  | exitZero
  | exitNonzero
  | timedOut
  deriving DecidableEq, Repr

/-- Environment of one decompilation-fallback invocation: whether the
CFR jar is already cached, whether downloading it would succeed, whether
a Java runtime is present, whether the input jar exists on disk, how the
decompiler subprocess ends, and whether writing the sources archive
succeeds. -/
structure DecompEnv where
  cfrCached : Bool
  cfrDownloadOk : Bool
  javaAvailable : Bool
  jarOnDisk : Bool
  cfrRun : CfrRun
  packagingOk : Bool
  deriving DecidableEq, Repr

/-- Embedding of `JavaDecompiler._ensure_cfr_available` (called from
`__init__`): reuse the cached jar when present, otherwise download it —
and on a download failure log and re-raise (`raise`), so the exception
escapes. -/
def ensure_cfr_available (env : DecompEnv) : PyResult Unit :=
  if env.cfrCached then .ok ()
  else if env.cfrDownloadOk then .ok ()
  else .exn

/-- Embedding of `JavaDecompiler.check_java_available`: `True` exactly
when `java -version` runs and exits zero; timeouts and a missing binary
are caught and yield `False`. -/
def check_java_available (env : DecompEnv) : Bool := env.javaAvailable

/-- Embedding of `JavaDecompiler.decompile_jar`: a missing input jar or
missing Java runtime fail early; then the CFR subprocess must exit zero,
with a non-zero exit, a timeout, or any other exception caught and
reported as `False`. -/
def decompile_jar (env : DecompEnv) : Bool :=
  if !env.jarOnDisk then false
  else if !(check_java_available env) then false
  else
    match env.cfrRun with
    | .exitZero => true
    | .exitNonzero => false
    | .timedOut => false

/-- Embedding of `JavaDecompiler.create_sources_jar`: any exception while
walking or zipping is caught and reported as `False`. -/
def create_sources_jar (env : DecompEnv) : Bool := env.packagingOk

/-- Python `os.path.basename` for POSIX separators. -/
def pyBasename (p : List Char) : List Char :=
  ((p.reverse.takeWhile (fun c => c ≠ '/')).reverse)

/-- Strip a trailing `.jar` from a file name, as `decompile_and_package`
does before appending `-sources.jar`. -/
def stripDotJar (n : List Char) : List Char :=
  if ".jar".toList.reverse.isPrefixOf n.reverse then n.take (n.length - 4)
  else n

/-- Embedding of `JavaDecompiler.decompile_and_package`: decompile into
a scratch directory, then package the `.java` tree as
`{name}-sources.jar` under the output directory; every failed step
yields `None`. -/
def decompile_and_package (env : DecompEnv) (jar_path output_dir : List Char) :
    Option (List Char) :=
  if decompile_jar env then
    let jar_name := stripDotJar (pyBasename jar_path)
    let sources_jar_path := pyJoin2 output_dir (jar_name ++ "-sources.jar".toList)
    if create_sources_jar env then some sources_jar_path else none
  else none

/-- The whole decompilation fallback as a caller experiences it:
construct a `JavaDecompiler` (which runs `_ensure_cfr_available`) and,
when construction does not raise, call `decompile_and_package`. -/
def decompileFallback (env : DecompEnv) (jar_path output_dir : List Char) :
    PyResult (Option (List Char)) :=
  match ensure_cfr_available env with
  | .exn => .exn
  | .ok _ => .ok (decompile_and_package env jar_path output_dir)

/-! ## Lemmas about the string primitives -/

theorem countChar_append (c : Char) (xs ys : List Char) :
    countChar c (xs ++ ys) = countChar c xs + countChar c ys := by
  induction xs with
  | nil => simp [countChar]
  | cons x xs ih => simp [countChar, ih]; omega

theorem countChar_eq_zero (c : Char) {xs : List Char} (h : c ∉ xs) :
    countChar c xs = 0 := by
  induction xs with
  | nil => rfl
  | cons x xs ih =>
    have hx : x ≠ c := fun he => h (he ▸ List.mem_cons_self x xs)
    simp [countChar, hx, ih (fun hm => h (List.mem_cons_of_mem x hm))]

theorem containsChar_iff (c : Char) (l : List Char) :
    containsChar c l = true ↔ c ∈ l := by
  simp [containsChar, List.any_eq_true]

theorem splitOnChar_ne_nil (c : Char) (l : List Char) : splitOnChar c l ≠ [] := by
  induction l with
  | nil => simp [splitOnChar]
  | cons x xs ih =>
    unfold splitOnChar
    by_cases hx : x = c
    · simp [hx]
    · simp only [hx, if_false]
      cases h : splitOnChar c xs with
      | nil => simp
      | cons y ys => simp

theorem splitOnChar_of_not_mem (c : Char) {l : List Char} (h : c ∉ l) :
    splitOnChar c l = [l] := by
  induction l with
  | nil => rfl
  | cons x xs ih =>
    have hx : x ≠ c := fun he => h (he ▸ List.mem_cons_self x xs)
    have hr := ih (fun hm => h (List.mem_cons_of_mem x hm))
    unfold splitOnChar
    simp [hx, hr]

theorem splitOnChar_append_sep (c : Char) {xs : List Char} (ys : List Char)
    (h : c ∉ xs) : splitOnChar c (xs ++ c :: ys) = xs :: splitOnChar c ys := by
  induction xs with
  | nil => simp [splitOnChar]
  | cons x xs ih =>
    have hx : x ≠ c := fun he => h (he ▸ List.mem_cons_self x xs)
    have hr := ih (fun hm => h (List.mem_cons_of_mem x hm))
    simp only [List.cons_append, splitOnChar, hx, if_false, List.append_eq, hr]

theorem splitOnChar_concat_sep (c : Char) (xs : List Char) {ys : List Char}
    (h : c ∉ ys) : splitOnChar c (xs ++ c :: ys) = splitOnChar c xs ++ [ys] := by
  induction xs with
  | nil => simp [splitOnChar, splitOnChar_of_not_mem c h]
  | cons x xs ih =>
    simp only [List.cons_append]
    unfold splitOnChar
    by_cases hx : x = c
    · simp [hx, ih]
    · simp only [hx, if_false, ih]
      cases hsx : splitOnChar c xs with
      | nil => exact absurd hsx (splitOnChar_ne_nil c xs)
      | cons a as => simp

theorem length_splitOnChar (c : Char) (l : List Char) :
    (splitOnChar c l).length = countChar c l + 1 := by
  induction l with
  | nil => rfl
  | cons x xs ih =>
    unfold splitOnChar countChar
    by_cases hx : x = c
    · simp [hx, ih]; omega
    · simp only [hx, if_false]
      cases hsx : splitOnChar c xs with
      | nil => exact absurd hsx (splitOnChar_ne_nil c xs)
      | cons a as =>
        rw [hsx] at ih
        simp at ih ⊢
        omega

theorem joinWith_splitOnChar (c : Char) (l : List Char) :
    joinWith c (splitOnChar c l) = l := by
  induction l with
  | nil => rfl
  | cons x xs ih =>
    unfold splitOnChar
    by_cases hx : x = c
    · simp only [hx, if_true]
      cases hsx : splitOnChar c xs with
      | nil => exact absurd hsx (splitOnChar_ne_nil c xs)
      | cons a as =>
        rw [hsx] at ih
        simp [joinWith, ih]
    · simp only [hx, if_false]
      cases hsx : splitOnChar c xs with
      | nil => exact absurd hsx (splitOnChar_ne_nil c xs)
      | cons a as =>
        rw [hsx] at ih
        cases as with
        | nil => simp [joinWith] at ih ⊢; simp [ih]
        | cons b bs => simp [joinWith] at ih ⊢; simp [ih]

theorem splitOnChar_head (c : Char) (l : List Char) :
    (splitOnChar c l).head? = some (l.takeWhile (fun x => x ≠ c)) := by
  induction l with
  | nil => rfl
  | cons x xs ih =>
    unfold splitOnChar
    by_cases hx : x = c
    · simp [hx, List.takeWhile]
    · simp only [hx, if_false]
      cases hsx : splitOnChar c xs with
      | nil => exact absurd hsx (splitOnChar_ne_nil c xs)
      | cons a as =>
        rw [hsx] at ih
        simp only [List.head?] at ih
        have ha : a = xs.takeWhile (fun x => x ≠ c) := by
          injection ih
        simp [List.takeWhile, hx, ha]

theorem getLastD_concat_eq {α : Type} (l : List α) (a d : α) :
    (l ++ [a]).getLastD d = a := by
  induction l with
  | nil => rfl
  | cons x xs ih =>
    cases xs with
    | nil => rfl
    | cons y ys => simpa using ih

theorem countChar_pos (c : Char) {l : List Char} (h : c ∈ l) :
    1 ≤ countChar c l := by
  induction l with
  | nil => cases h
  | cons x xs ih =>
    rcases List.mem_cons.mp h with h1 | h1
    · simp [countChar, h1.symm]
    · have := ih h1
      simp only [countChar]
      omega

theorem joinWith_ne_nil (c : Char) (l : List (List Char)) (hne : l ≠ [])
    (h : ∀ x ∈ l, x ≠ []) : joinWith c l ≠ [] := by
  match l with
  | [x] => simpa [joinWith] using h x (by simp)
  | x :: y :: ys => simp [joinWith]

/-! ## Claim C2: the two accepted surface forms of the parser -/

/-- C2: an input with exactly two colons (that is, of the shape
`g ++ ":" ++ a ++ ":" ++ v` with colon-free fields) parses into the
three colon-separated fields unchanged; an input with exactly one colon
whose left side contains a dot parses into everything before the last
dot, the segment after the last dot, and the part after the colon. -/
theorem parse_dependency_two_forms :
    (∀ g a v : List Char, ':' ∉ g → ':' ∉ a → ':' ∉ v →
      parse_dependency (g ++ ':' :: a ++ ':' :: v) = .ok ⟨g, a, v⟩) ∧
    (∀ p q v : List Char, ':' ∉ p → ':' ∉ q → ':' ∉ v → '.' ∉ q →
      parse_dependency (p ++ '.' :: q ++ ':' :: v) = .ok ⟨p, q, v⟩) := by
  constructor
  · intro g a v hg ha hv
    have e1 : g ++ ':' :: a ++ ':' :: v = g ++ ':' :: (a ++ ':' :: v) := by
      simp
    rw [e1]
    have hcount : countChar ':' (g ++ ':' :: (a ++ ':' :: v)) = 2 := by
      simp [countChar, countChar_append, countChar_eq_zero _ hg,
        countChar_eq_zero _ ha, countChar_eq_zero _ hv]
    have hsplit : splitOnChar ':' (g ++ ':' :: (a ++ ':' :: v)) = [g, a, v] := by
      rw [splitOnChar_append_sep ':' _ hg, splitOnChar_append_sep ':' _ ha,
        splitOnChar_of_not_mem ':' hv]
    unfold parse_dependency
    rw [hcount, hsplit]
    simp
  · intro p q v hp hq hv hd
    have hga : ':' ∉ p ++ '.' :: q := by
      intro hm
      rcases List.mem_append.mp hm with h1 | h1
      · exact hp h1
      · rcases List.mem_cons.mp h1 with h2 | h2
        · exact absurd h2 (by decide)
        · exact hq h2
    have hcount : countChar ':' (p ++ '.' :: q ++ ':' :: v) = 1 := by
      rw [countChar_append, countChar_eq_zero _ hga]
      simp [countChar, countChar_eq_zero _ hv]
    have hsplit : splitOnChar ':' (p ++ '.' :: q ++ ':' :: v) =
        [p ++ '.' :: q, v] := by
      rw [splitOnChar_append_sep ':' _ hga,
        splitOnChar_of_not_mem ':' hv]
    have hdotmem : containsChar '.' (p ++ '.' :: q) = true := by
      rw [containsChar_iff]
      exact List.mem_append.mpr (Or.inr (List.mem_cons_self _ _))
    have hparts : splitOnChar '.' (p ++ '.' :: q) = splitOnChar '.' p ++ [q] :=
      splitOnChar_concat_sep '.' p hd
    unfold parse_dependency
    rw [hcount, hsplit]
    simp [hdotmem, hparts, List.dropLast_concat, getLastD_concat_eq,
      joinWith_splitOnChar]

/-- Witness for C2 at concrete inputs of both surface forms. -/
theorem parse_dependency_two_forms_witness :
    parse_dependency ("com".toList ++ ':' :: "gson".toList ++ ':' :: "1".toList)
      = .ok ⟨"com".toList, "gson".toList, "1".toList⟩ ∧
    parse_dependency ("co".toList ++ '.' :: "m".toList ++ ':' :: "1".toList)
      = .ok ⟨"co".toList, "m".toList, "1".toList⟩ :=
  ⟨parse_dependency_two_forms.1 _ _ _ (by decide) (by decide) (by decide),
   parse_dependency_two_forms.2 _ _ _ (by decide) (by decide) (by decide)
     (by decide)⟩

/-! ## Claim C3: the exact failure condition of the parser -/

/-- C3: the parser fails with the typed invalid-format error exactly
when the colon count is neither 1 nor 2, or it is 1 and the left side
(the characters before the first colon) contains no dot; and on every
input it returns either a coordinate or that typed error, never anything
else. -/
theorem parse_dependency_error_iff (s : List Char) :
    (parse_dependency s = .invalidFormat ↔
      ((countChar ':' s ≠ 1 ∧ countChar ':' s ≠ 2) ∨
        (countChar ':' s = 1 ∧ '.' ∉ leftOfColon s))) ∧
    ((∃ c, parse_dependency s = .ok c) ∨ parse_dependency s = .invalidFormat) := by
  constructor
  · by_cases h2 : countChar ':' s = 2
    · have hlen : (splitOnChar ':' s).length = 3 := by
        rw [length_splitOnChar, h2]
      obtain ⟨g, a, v, hs⟩ := List.length_eq_three.mp hlen
      unfold parse_dependency
      rw [h2, hs]
      simp
    · by_cases h1 : countChar ':' s = 1
      · have hlen : (splitOnChar ':' s).length = 2 := by
          rw [length_splitOnChar, h1]
        obtain ⟨ga, v, hs⟩ := List.length_eq_two.mp hlen
        have hhead : ga = leftOfColon s := by
          have hh := splitOnChar_head ':' s
          rw [hs, List.head?_cons] at hh
          unfold leftOfColon
          exact Option.some.inj hh
        by_cases hdot : containsChar '.' ga
        · have hdm : '.' ∈ leftOfColon s :=
            hhead ▸ (containsChar_iff '.' ga).mp hdot
          unfold parse_dependency
          rw [h1, hs]
          simp [hdot, hdm]
        · have hdm : '.' ∉ leftOfColon s := by
            rw [← hhead]
            intro hm
            exact hdot ((containsChar_iff '.' ga).mpr hm)
          unfold parse_dependency
          rw [h1, hs]
          simp [hdot, hdm]
      · unfold parse_dependency
        simp [h1, h2]
  · cases hp : parse_dependency s with
    | ok c => exact Or.inl ⟨c, rfl⟩
    | invalidFormat => exact Or.inr rfl

/-! ## Claim C9: field non-emptiness of parsed coordinates -/

/-- C9 counterexample: the two-character input of two colons parses
successfully into a coordinate all three of whose fields are empty, so
the parser does not enforce the non-emptiness invariant. -/
theorem parse_dependency_empty_fields_cex :
    parse_dependency ("::".toList) = .ok ⟨[], [], []⟩ := by decide

/-- C9 amended: a coordinate built by a successful parse has all three
fields non-empty provided every colon-separated field of the input is
non-empty and — for the one-colon form only — every dot-separated
segment of the field before the colon is non-empty. -/
theorem parse_dependency_fields_nonempty (s : List Char) (co : Coordinate)
    (hok : parse_dependency s = .ok co)
    (hcolon : ∀ part ∈ splitOnChar ':' s, part ≠ [])
    (hdotseg : countChar ':' s = 1 →
      ∀ seg ∈ splitOnChar '.' ((splitOnChar ':' s).headD []), seg ≠ []) :
    co.group ≠ [] ∧ co.artifact ≠ [] ∧ co.version ≠ [] := by
  by_cases h2 : countChar ':' s = 2
  · have hlen : (splitOnChar ':' s).length = 3 := by
      rw [length_splitOnChar, h2]
    obtain ⟨g, a, v, hs⟩ := List.length_eq_three.mp hlen
    have hg := hcolon g (by rw [hs]; simp)
    have ha := hcolon a (by rw [hs]; simp)
    have hv := hcolon v (by rw [hs]; simp)
    unfold parse_dependency at hok
    rw [h2, hs] at hok
    simp only [if_pos rfl] at hok
    injection hok with hco
    subst hco
    exact ⟨hg, ha, hv⟩
  · by_cases h1 : countChar ':' s = 1
    · have hlen : (splitOnChar ':' s).length = 2 := by
        rw [length_splitOnChar, h1]
      obtain ⟨ga, v, hs⟩ := List.length_eq_two.mp hlen
      have hv := hcolon v (by rw [hs]; simp)
      have hsegs : ∀ seg ∈ splitOnChar '.' ga, seg ≠ [] := by
        intro seg hm
        apply hdotseg h1 seg
        rw [hs]
        simpa using hm
      unfold parse_dependency at hok
      rw [h1, hs] at hok
      by_cases hdot : containsChar '.' ga
      · simp only [hdot] at hok
        simp at hok
        obtain ⟨ps, x, hparts⟩ :=
          (List.eq_nil_or_concat' (splitOnChar '.' ga)).resolve_left
            (splitOnChar_ne_nil '.' ga)
        have hxne := hsegs x (by rw [hparts]; simp)
        have hps_ne : ps ≠ [] := by
          have hcnt : 1 ≤ countChar '.' ga :=
            countChar_pos '.' ((containsChar_iff '.' ga).mp hdot)
          have hlp := length_splitOnChar '.' ga
          rw [hparts] at hlp
          intro he
          rw [he] at hlp
          simp at hlp
          omega
        have hgrp : joinWith '.' ps ≠ [] :=
          joinWith_ne_nil '.' ps hps_ne
            (fun y hy => hsegs y (by rw [hparts]; exact List.mem_append.mpr (Or.inl hy)))
        rw [hparts, List.dropLast_concat, List.getLast?_append_cons] at hok
        simp only [List.getLast?_singleton, Option.getD_some] at hok
        subst hok
        exact ⟨hgrp, hxne, hv⟩
      · simp [hdot] at hok
    · unfold parse_dependency at hok
      simp [h1, h2] at hok

/-- Witness for the amended C9 at a concrete input. -/
theorem parse_dependency_fields_nonempty_witness :
    ("a".toList : List Char) ≠ [] ∧ ("b".toList : List Char) ≠ [] ∧
      ("1".toList : List Char) ≠ [] :=
  parse_dependency_fields_nonempty ("a.b:1".toList)
    ⟨"a".toList, "b".toList, "1".toList⟩ (by decide) (by decide) (by decide)

/-! ## Claim C10: the standalone validator versus the parser -/

/-- C10 counterexample: a one-colon input with an empty version is
rejected by the validator but accepted by the parser, so the two do not
agree on every input. -/
theorem validator_parser_disagree_cex :
    validate_dependency_format ("a.b:".toList) = false ∧
    parse_dependency ("a.b:".toList) = .ok ⟨"a".toList, "b".toList, []⟩ := by
  decide

/-- C10 amended: validation implies parseability — every input the
validator accepts is parsed successfully — while the converse is false
(the validator additionally requires non-blank fields). -/
theorem validate_imp_parse (s : List Char)
    (h : validate_dependency_format s = true) :
    ∃ co, parse_dependency s = .ok co := by
  have hne : s.isEmpty = false := by
    cases s with
    | nil => rw [validate_dependency_format] at h; simp at h
    | cons x xs => rfl
  rw [validate_dependency_format, hne] at h
  simp only [Bool.false_eq_true, if_false] at h
  cases hs : splitOnChar ':' s with
  | nil => exact absurd hs (splitOnChar_ne_nil ':' s)
  | cons p0 t0 =>
    rw [hs] at h
    cases t0 with
    | nil => simp at h
    | cons p1 t1 =>
      cases t1 with
      | nil =>
        have hcount : countChar ':' s = 1 := by
          have hl := length_splitOnChar ':' s
          rw [hs] at hl
          simp at hl
          omega
        have hdot : containsChar '.' p0 = true := by
          simp at h
          exact h.1
        refine ⟨⟨joinWith '.' (splitOnChar '.' p0).dropLast,
          (splitOnChar '.' p0).getLastD [], p1⟩, ?_⟩
        unfold parse_dependency
        rw [hcount, hs]
        simp [hdot]
      | cons p2 t2 =>
        cases t2 with
        | nil =>
          have hcount : countChar ':' s = 2 := by
            have hl := length_splitOnChar ':' s
            rw [hs] at hl
            simp at hl
            omega
          refine ⟨⟨p0, p1, p2⟩, ?_⟩
          unfold parse_dependency
          rw [hcount, hs]
          simp
        | cons p3 t3 => simp at h

/-- Witness for the amended C10 at a concrete input. -/
theorem validate_imp_parse_witness :
    ∃ co, parse_dependency ("g:a:1".toList) = .ok co :=
  validate_imp_parse ("g:a:1".toList) (by decide)

/-! ## Claim C4: the existence check -/

/-- C4: `check_artifact_exists` reports presence exactly for response
status codes in [200, 400); a network failure (raised request
exception) is caught and reported as absence, and the repository loop
of the locator then simply moves on to the next repository. -/
theorem check_artifact_exists_spec :
    (∀ status : Nat, check_artifact_exists (.response status) = true ↔
      (200 ≤ status ∧ status < 400)) ∧
    check_artifact_exists .requestException = false ∧
    (∀ (env : NetEnv) (g a v od repo : List Char) (rest : List (List Char))
        (tr : Trace),
      env.headOf (sourcesUrl repo g a v) = .requestException →
      sourcesLoop env g a v od (repo :: rest) tr =
        sourcesLoop env g a v od rest tr) := by
  refine ⟨?_, rfl, ?_⟩
  · intro status
    simp [check_artifact_exists]
  · intro env g a v od repo rest tr hexc
    simp [sourcesLoop, hexc, check_artifact_exists]

/-- Witness for C4 at a concrete failing environment. -/
theorem check_artifact_exists_spec_witness :
    sourcesLoop ⟨fun _ => HeadResult.requestException, fun _ => false⟩
        ("g".toList) ("a".toList) ("1".toList) ("d".toList)
        ["r/".toList] ⟨[], []⟩ =
      sourcesLoop ⟨fun _ => HeadResult.requestException, fun _ => false⟩
        ("g".toList) ("a".toList) ("1".toList) ("d".toList) [] ⟨[], []⟩ :=
  check_artifact_exists_spec.2.2 _ _ _ _ _ _ _ _ rfl

/-! ## Claim C6: the canonical artifact URL -/

theorem not_mem_pyReplace_of {old new c : Char} (s : List Char) (hc : c ∉ s)
    (hne : c ≠ new) : c ∉ pyReplace old new s := by
  intro hm
  rcases List.mem_map.mp hm with ⟨x, hx, he⟩
  by_cases hxo : x = old
  · rw [hxo] at he
    simp at he
    exact hne he.symm
  · simp [hxo] at he
    subst he
    exact hc hx

theorem splitOnChar_append_sep_general (c : Char) (xs ys : List Char) :
    splitOnChar c (xs ++ c :: ys) = splitOnChar c xs ++ splitOnChar c ys := by
  induction xs with
  | nil => simp [splitOnChar]
  | cons x xt ih =>
    simp only [List.cons_append]
    unfold splitOnChar
    by_cases hx : x = c
    · simp [hx, ih]
      cases ys <;> rfl
    · simp only [hx, if_false, List.append_eq, ih]
      cases hsx : splitOnChar c xt with
      | nil => exact absurd hsx (splitOnChar_ne_nil c xt)
      | cons q qs =>
        simp [hsx]
        cases ys <;> rfl

theorem not_mem_of_mem_splitOnChar (c : Char) :
    ∀ (l part : List Char), part ∈ splitOnChar c l → c ∉ part := by
  intro l
  induction l with
  | nil =>
    intro part hp
    simp [splitOnChar] at hp
    subst hp
    simp
  | cons x xs ih =>
    intro part hp
    unfold splitOnChar at hp
    by_cases hx : x = c
    · simp [hx] at hp
      rcases hp with hp | hp
      · subst hp; simp
      · exact ih part hp
    · simp only [hx, if_false] at hp
      cases hsx : splitOnChar c xs with
      | nil => exact absurd hsx (splitOnChar_ne_nil c xs)
      | cons q qs =>
        rw [hsx] at hp
        rcases List.mem_cons.mp hp with hp | hp
        · subst hp
          intro hmem
          rcases List.mem_cons.mp hmem with h1 | h1
          · exact hx h1.symm
          · exact ih q (by rw [hsx]; exact List.mem_cons_self q qs) h1
        · exact ih part (by rw [hsx]; exact List.mem_cons_of_mem q hp)

theorem pyReplace_cons (old new x : Char) (xt : List Char) :
    pyReplace old new (x :: xt) =
      (if x = old then new else x) :: pyReplace old new xt := rfl

theorem splitOnChar_pyReplace {g : List Char} (h : '/' ∉ g) :
    splitOnChar '/' (pyReplace '.' '/' g) = splitOnChar '.' g := by
  induction g with
  | nil => rfl
  | cons x xt ih =>
    have hx : x ≠ '/' := fun he => h (he ▸ List.mem_cons_self x xt)
    have ih2 := ih (fun hm => h (List.mem_cons_of_mem x hm))
    rw [pyReplace_cons]
    by_cases hd : x = '.'
    · rw [if_pos hd, hd]
      show ([] : List Char) :: splitOnChar '/' (pyReplace '.' '/' xt) =
        ([] : List Char) :: splitOnChar '.' xt
      rw [ih2]
    · rw [if_neg hd]
      cases hsp : splitOnChar '/' (pyReplace '.' '/' xt) with
      | nil => exact absurd hsp (splitOnChar_ne_nil _ _)
      | cons q qs =>
        rw [hsp] at ih2
        unfold splitOnChar
        simp only [hx, hd, if_false, hsp, ← ih2]

theorem joinWith_append (c : Char) :
    ∀ (xs ys : List (List Char)), xs ≠ [] → ys ≠ [] →
      joinWith c (xs ++ ys) = joinWith c xs ++ c :: joinWith c ys := by
  intro xs
  induction xs with
  | nil => intro ys h _; exact absurd rfl h
  | cons x xt ih =>
    intro ys _ hys
    cases xt with
    | nil =>
      cases ys with
      | nil => exact absurd rfl hys
      | cons y yt => simp [joinWith]
    | cons x2 xt2 =>
      have ih2 := ih ys (List.cons_ne_nil x2 xt2) hys
      simp only [List.cons_append] at ih2 ⊢
      rw [show joinWith c (x :: x2 :: (xt2 ++ ys)) =
        x ++ c :: joinWith c (x2 :: (xt2 ++ ys)) from rfl]
      rw [show (xt2 ++ ys : List (List Char)) = xt2 ++ ys from rfl] at ih2
      rw [ih2]
      simp [joinWith, List.append_assoc]

theorem dropLast_concat_getLastD {α : Type} (l : List α) (d : α)
    (h : l ≠ []) : l.dropLast ++ [l.getLastD d] = l := by
  rcases List.eq_nil_or_concat' l with rfl | ⟨Q, x, rfl⟩
  · exact absurd rfl h
  · rw [List.dropLast_concat, getLastD_concat_eq]

theorem head?_append_of_ne_nil {l₁ : List Char} (l₂ : List Char)
    (h : l₁ ≠ []) : (l₁ ++ l₂).head? = l₁.head? := by
  cases l₁ with
  | nil => exact absurd rfl h
  | cons x xt => rfl

theorem takeWhile_ne_append (c : Char) {xs : List Char} (ys : List Char)
    (h : c ∉ xs) :
    (xs ++ c :: ys).takeWhile (fun x => x ≠ c) = xs := by
  induction xs with
  | nil => simp [List.takeWhile_cons]
  | cons x xt ih =>
    have hx : x ≠ c := fun he => h (he ▸ List.mem_cons_self x xt)
    have ih2 := ih (fun hm => h (List.mem_cons_of_mem x hm))
    simp only [ne_eq, decide_not] at ih2
    simp [List.takeWhile_cons, hx, ih2]

theorem dropWhile_ne_append (c : Char) {xs : List Char} (ys : List Char)
    (h : c ∉ xs) :
    (xs ++ c :: ys).dropWhile (fun x => x ≠ c) = c :: ys := by
  induction xs with
  | nil => simp [List.dropWhile_cons]
  | cons x xt ih =>
    have hx : x ≠ c := fun he => h (he ▸ List.mem_cons_self x xt)
    have ih2 := ih (fun hm => h (List.mem_cons_of_mem x hm))
    simp only [ne_eq, decide_not] at ih2
    simp [List.dropWhile_cons, hx, ih2]

theorem schemeScan_append_slash {xs : List Char} (ys : List Char)
    (h : ':' ∉ xs) : schemeScan (xs ++ '/' :: ys) = none := by
  induction xs with
  | nil => rfl
  | cons x xt ih =>
    have hx : x ≠ ':' := fun he => h (he ▸ List.mem_cons_self x xt)
    have ih2 := ih (fun hm => h (List.mem_cons_of_mem x hm))
    simp only [List.cons_append]
    unfold schemeScan
    rw [if_neg hx]
    by_cases hsc : isSchemeChar x = true
    · rw [if_pos hsc, ih2]
    · rw [if_neg hsc]

theorem splitScheme_none {rel : List Char} (h : schemeScan rel = none) :
    splitScheme rel = (none, rel) := by
  unfold splitScheme
  rw [h]

theorem splitScheme_https (rest : List Char) :
    splitScheme ("https://".toList ++ rest) =
      (some ("https".toList), '/' :: '/' :: rest) := rfl

theorem splitScheme_http (rest : List Char) :
    splitScheme ("http://".toList ++ rest) =
      (some ("http".toList), '/' :: '/' :: rest) := rfl

theorem splitNetloc_double_slash (r2 : List Char) :
    splitNetloc ('/' :: '/' :: r2) =
      (r2.takeWhile (fun c => c ≠ '/'), r2.dropWhile (fun c => c ≠ '/')) := rfl

theorem splitNetloc_no_slash {rest : List Char} (h : rest.head? ≠ some '/') :
    splitNetloc rest = ([], rest) := by
  have hne : rest.take 2 ≠ ['/', '/'] := by
    cases rest with
    | nil => simp
    | cons x t =>
      have hx : x ≠ '/' := by simpa using h
      simp [List.take_succ_cons, hx]
  unfold splitNetloc
  rw [if_neg hne]

theorem urlparse_pre (pre sch host bp : List Char)
    (hsplit : ∀ t, splitScheme (pre ++ t) = (some sch, '/' :: '/' :: t))
    (hhost : '/' ∉ host) :
    urlparseModel (pre ++ host ++ '/' :: bp) [] = ⟨sch, host, '/' :: bp⟩ := by
  have e : pre ++ host ++ '/' :: bp = pre ++ (host ++ '/' :: bp) := by
    simp [List.append_assoc]
  unfold urlparseModel
  rw [e, hsplit]
  simp only []
  rw [splitNetloc_double_slash]
  simp only []
  rw [takeWhile_ne_append '/' bp hhost, dropWhile_ne_append '/' bp hhost]

theorem urlparse_rel (sn : List Char) {rel : List Char}
    (hscan : schemeScan rel = none) (hhead : rel.head? ≠ some '/') :
    urlparseModel rel sn = ⟨sn, [], rel⟩ := by
  unfold urlparseModel
  rw [splitScheme_none hscan]
  simp only []
  rw [splitNetloc_no_slash hhead]

theorem urlunsplitModel_absolute (sn host path : List Char)
    (hsn : sn ≠ []) (hhost : host ≠ []) (hpath : path.head? = some '/') :
    urlunsplitModel sn host path = sn ++ ':' :: '/' :: '/' :: (host ++ path) := by
  have h2 : ¬(path ≠ [] ∧ path.head? ≠ some '/') := by
    rintro ⟨_, hcon⟩
    exact hcon hpath
  simp only [urlunsplitModel]
  rw [if_pos (Or.inl hhost), if_neg h2, if_pos hsn]

theorem resolveSegments_no_dots :
    ∀ (segs acc : List (List Char)),
      (∀ s ∈ segs, s ≠ ['.'] ∧ s ≠ ['.', '.']) →
      resolveSegments acc segs = acc ++ segs := by
  intro segs
  induction segs with
  | nil =>
    intro acc _
    simp [resolveSegments]
  | cons s st ih =>
    intro acc h
    have hs := h s (List.mem_cons_self s st)
    unfold resolveSegments
    rw [if_neg hs.2, if_neg hs.1]
    rw [ih _ (fun x hx => h x (List.mem_cons_of_mem s hx))]
    simp

theorem filterInterior_cons (f : List Char) {rest : List (List Char)}
    (h : rest ≠ []) :
    filterInterior (f :: rest) =
      f :: ((rest.dropLast.filter (fun s => s ≠ [])) ++ [rest.getLastD []]) := by
  cases rest with
  | nil => exact absurd rfl h
  | cons r rt => rfl

theorem urljoinMerge_clean (sn host bp rel : List Char)
    (hsn : sn ≠ []) (hhost : host ≠ [])
    (hlastbp : (splitOnChar '/' bp).getLastD [] = [])
    (hbpMid : ∀ seg ∈ (splitOnChar '/' bp).dropLast, seg ≠ [])
    (hbpDots : ∀ seg ∈ splitOnChar '/' bp, seg ≠ ['.'] ∧ seg ≠ ['.', '.'])
    (hrelHead : rel.head? ≠ some '/')
    (hrelMid : ∀ seg ∈ (splitOnChar '/' rel).dropLast, seg ≠ [])
    (hrelDots : ∀ seg ∈ splitOnChar '/' rel, seg ≠ ['.'] ∧ seg ≠ ['.', '.']) :
    urljoinMerge sn host ('/' :: bp) rel =
      sn ++ ':' :: '/' :: '/' :: (host ++ '/' :: (bp ++ rel)) := by
  have hS := dropLast_concat_getLastD (splitOnChar '/' bp) []
    (splitOnChar_ne_nil '/' bp)
  rw [hlastbp] at hS
  have hR := dropLast_concat_getLastD (splitOnChar '/' rel) []
    (splitOnChar_ne_nil '/' rel)
  have hbp_join := joinWith_splitOnChar '/' bp
  have hrel_join := joinWith_splitOnChar '/' rel
  have hbpp : basePathParts ('/' :: bp) =
      ([] :: (splitOnChar '/' bp).dropLast) ++ [[]] := by
    simp only [basePathParts]
    have hp : splitOnChar '/' ('/' :: bp) = [] :: splitOnChar '/' bp := by
      simp [splitOnChar]
    rw [hp]
    have h1 : (([] : List Char) :: splitOnChar '/' bp).getLastD [] = [] := by
      conv_lhs => rw [← hS]
      rw [← List.cons_append, getLastD_concat_eq]
    rw [if_neg (fun hc => hc h1)]
    conv_lhs => rw [← hS]
    rw [← List.cons_append]
  have hQf : ∀ s ∈ (splitOnChar '/' bp).dropLast,
      (fun s => decide (s ≠ ([] : List Char))) s = true :=
    fun s hs => decide_eq_true (hbpMid s hs)
  have hRdf : ∀ s ∈ (splitOnChar '/' rel).dropLast,
      (fun s => decide (s ≠ ([] : List Char))) s = true :=
    fun s hs => decide_eq_true (hrelMid s hs)
  have hseg : filterInterior (basePathParts ('/' :: bp) ++ splitOnChar '/' rel) =
      ([] :: (splitOnChar '/' bp).dropLast) ++ splitOnChar '/' rel := by
    rw [hbpp, List.append_assoc, List.cons_append]
    rw [filterInterior_cons _ (by simp)]
    rw [← hR]
    simp only [← List.append_assoc]
    rw [List.dropLast_concat, getLastD_concat_eq]
    rw [List.filter_append, List.filter_append]
    rw [List.filter_eq_self.mpr hQf, List.filter_eq_self.mpr hRdf]
    rw [show (([[]] : List (List Char)).filter (fun s => s ≠ [])) = [] from rfl]
    simp [List.append_assoc]
  have hdots_all : ∀ s ∈ ([] :: (splitOnChar '/' bp).dropLast) ++
      splitOnChar '/' rel, s ≠ ['.'] ∧ s ≠ ['.', '.'] := by
    intro s hs
    rcases List.mem_append.mp hs with h1 | h1
    · rcases List.mem_cons.mp h1 with h2 | h2
      · subst h2
        exact ⟨by simp, by simp⟩
      · refine hbpDots s ?_
        rw [← hS]
        exact List.mem_append.mpr (Or.inl h2)
    · exact hrelDots s h1
  have hres : resolveSegments []
      (([] :: (splitOnChar '/' bp).dropLast) ++ splitOnChar '/' rel) =
      ([] :: (splitOnChar '/' bp).dropLast) ++ splitOnChar '/' rel := by
    have h := resolveSegments_no_dots _ [] hdots_all
    simpa using h
  have hlastseg : ((([] :: (splitOnChar '/' bp).dropLast) ++
      splitOnChar '/' rel).getLastD []) = (splitOnChar '/' rel).getLastD [] := by
    rw [show (([] :: (splitOnChar '/' bp).dropLast) ++ splitOnChar '/' rel) =
        ((([] :: (splitOnChar '/' bp).dropLast) ++
          (splitOnChar '/' rel).dropLast) ++
          [(splitOnChar '/' rel).getLastD []]) from by
      rw [List.append_assoc, hR]]
    rw [getLastD_concat_eq]
  have hfnq_mem : (splitOnChar '/' rel).getLastD [] ∈ splitOnChar '/' rel := by
    have h : (splitOnChar '/' rel).getLastD [] ∈
        (splitOnChar '/' rel).dropLast ++ [(splitOnChar '/' rel).getLastD []] := by
      simp
    rwa [hR] at h
  have hfnq_dots := hrelDots _ hfnq_mem
  have hcond2 : ¬(((([] :: (splitOnChar '/' bp).dropLast) ++
      splitOnChar '/' rel).getLastD []) = ['.'] ∨
      ((([] :: (splitOnChar '/' bp).dropLast) ++
      splitOnChar '/' rel).getLastD []) = ['.', '.']) := by
    rw [hlastseg]
    rintro (h | h)
    · exact hfnq_dots.1 h
    · exact hfnq_dots.2 h
  have hpath : joinWith '/'
      (([] :: (splitOnChar '/' bp).dropLast) ++ splitOnChar '/' rel) =
      '/' :: (bp ++ rel) := by
    rw [joinWith_append '/' _ _ (by simp) (splitOnChar_ne_nil '/' rel)]
    rw [hrel_join]
    cases hQe : (splitOnChar '/' bp).dropLast with
    | nil =>
      have hbp0 : bp = [] := by
        conv_lhs => rw [← hbp_join, ← hS, hQe]
        rfl
      rw [hbp0]
      simp [joinWith]
    | cons q qt =>
      have hbp1 : bp = joinWith '/' ((q :: qt) ++ [[]]) := by
        conv_lhs => rw [← hbp_join, ← hS, hQe]
      rw [joinWith_append '/' (q :: qt) [[]] (by simp) (by simp)] at hbp1
      have hj : joinWith '/' ([[]] : List (List Char)) = [] := rfl
      rw [hj] at hbp1
      rw [hbp1]
      simp [joinWith, List.append_assoc]
  simp only [urljoinMerge]
  rw [if_neg hrelHead, hseg, hres, if_neg hcond2, hpath]
  rw [if_neg (by simp)]
  rw [urlunsplitModel_absolute sn host ('/' :: (bp ++ rel)) hsn hhost rfl]

theorem urljoin_clean (pre sn host bp rel : List Char)
    (hsplit : ∀ t, splitScheme (pre ++ t) = (some sn, '/' :: '/' :: t))
    (hpreEq : pre = sn ++ [':', '/', '/'])
    (hsnRel : sn ∈ uses_relative) (hsnNet : sn ∈ uses_netloc)
    (hsn : sn ≠ []) (hhost : host ≠ []) (hhostSlash : '/' ∉ host)
    (hlastbp : (splitOnChar '/' bp).getLastD [] = [])
    (hbpMid : ∀ seg ∈ (splitOnChar '/' bp).dropLast, seg ≠ [])
    (hbpDots : ∀ seg ∈ splitOnChar '/' bp, seg ≠ ['.'] ∧ seg ≠ ['.', '.'])
    (hrelScan : schemeScan rel = none)
    (hrelHead : rel.head? ≠ some '/')
    (hrelNil : rel ≠ [])
    (hrelMid : ∀ seg ∈ (splitOnChar '/' rel).dropLast, seg ≠ [])
    (hrelDots : ∀ seg ∈ splitOnChar '/' rel, seg ≠ ['.'] ∧ seg ≠ ['.', '.']) :
    urljoin (pre ++ host ++ '/' :: bp) rel = (pre ++ host ++ '/' :: bp) ++ rel := by
  have hbase_ne : pre ++ host ++ '/' :: bp ≠ [] := by
    rw [hpreEq]
    simp
  have hb := urlparse_pre pre sn host bp hsplit hhostSlash
  have hr := urlparse_rel sn hrelScan hrelHead
  have h1 : ¬(sn ≠ sn ∨ sn ∉ uses_relative) := by
    rintro (h | h)
    · exact h rfl
    · exact h hsnRel
  have h2 : ¬(sn ∈ uses_netloc ∧ ([] : List Char) ≠ []) := by
    rintro ⟨_, h⟩
    exact h rfl
  have hmn : mergeNetloc ⟨sn, host, '/' :: bp⟩ ⟨sn, [], rel⟩ = host := by
    simp [mergeNetloc, hsnNet]
  simp only [urljoin]
  rw [if_neg hbase_ne, if_neg hrelNil]
  simp only [hb, hr]
  rw [if_neg h1, if_neg h2, if_neg hrelNil, hmn]
  rw [urljoinMerge_clean sn host bp rel hsn hhost hlastbp hbpMid hbpDots
    hrelHead hrelMid hrelDots]
  rw [hpreEq]
  simp [List.append_assoc]

theorem mem_filename {c : Char} {a v ext : List Char} {cls : Option (List Char)}
    (hm : c ∈ a ++ '-' :: v ++ classifierPart cls ++ '.' :: ext) :
    c = '-' ∨ c = '.' ∨ c ∈ a ∨ c ∈ v ∨ c ∈ ext ∨
      ∃ cl, cls = some cl ∧ c ∈ cl := by
  rcases List.mem_append.mp hm with hm | hm
  · rcases List.mem_append.mp hm with hm | hm
    · rcases List.mem_append.mp hm with hm | hm
      · exact Or.inr (Or.inr (Or.inl hm))
      · rcases List.mem_cons.mp hm with hm | hm
        · exact Or.inl hm
        · exact Or.inr (Or.inr (Or.inr (Or.inl hm)))
    · cases cls with
      | none => simp [classifierPart] at hm
      | some cl =>
        simp only [classifierPart] at hm
        rcases List.mem_cons.mp hm with hm | hm
        · exact Or.inl hm
        · exact Or.inr (Or.inr (Or.inr (Or.inr (Or.inr ⟨cl, rfl, hm⟩))))
  · rcases List.mem_cons.mp hm with hm | hm
    · exact Or.inr (Or.inl hm)
    · exact Or.inr (Or.inr (Or.inr (Or.inr (Or.inl hm))))

/-- C6, counterexample to the original claim.  For the group `a..b`
(dots replaced by slashes give the relative path prefix `a//b`), the
program does not return the base URL with the canonical relative path
appended: `urljoin` filters out the empty path segment, yielding
`.../a/b/...` instead of `.../a//b/...`. -/
theorem get_artifact_url_dot_group_cex :
    get_artifact_url ("https://r/".toList) ("a..b".toList) ("c".toList)
        ("1".toList) none ("jar".toList) =
      "https://r/a/b/c/1/c-1.jar".toList ∧
      get_artifact_url ("https://r/".toList) ("a..b".toList) ("c".toList)
          ("1".toList) none ("jar".toList) ≠
        "https://r/".toList ++ pyReplace '.' '/' ("a..b".toList) ++
          '/' :: "c".toList ++ '/' :: "1".toList ++
          '/' :: ("c".toList ++ '-' :: "1".toList ++ classifierPart none ++
            '.' :: "jar".toList) :=
  ⟨by decide, by decide⟩

/-- C6 (corrected).  For a repository base URL `http(s)://host/dir/`
whose directory path has clean segments, and a coordinate whose group
has no empty dot-segment, no colon and no slash, whose artifact and
version are non-empty, slash-free and not dot segments, and whose
components contain none of the delimiter or control characters
`urlsplit` strips or splits on, `get_artifact_url` returns exactly the
base URL with the canonical relative path
`group-with-dots-as-slashes/artifact/version/artifact-version[-classifier].extension`
appended.  The original unconditional claim is refuted by
`get_artifact_url_dot_group_cex`: `urljoin` normalises the merged path,
so e.g. a group with consecutive dots does not produce the literal
concatenation. -/
theorem get_artifact_url_spec (pre host bp g a v ext : List Char)
    (cls : Option (List Char))
    (hpre : pre = ("https://").toList ∨ pre = ("http://").toList)
    (hhost : host ≠ []) (hhostSlash : '/' ∉ host)
    (hhostSafe : urlSafe host ∧ '[' ∉ host ∧ ']' ∉ host)
    (hlastbp : (splitOnChar '/' bp).getLastD [] = [])
    (hbpMid : ∀ seg ∈ (splitOnChar '/' bp).dropLast, seg ≠ [])
    (hbpDots : ∀ seg ∈ splitOnChar '/' bp, seg ≠ ['.'] ∧ seg ≠ ['.', '.'])
    (hbpSafe : urlSafe bp)
    (hg : ∀ seg ∈ splitOnChar '.' g, seg ≠ [])
    (hgColon : ':' ∉ g) (hgSlash : '/' ∉ g) (hgSafe : urlSafe g)
    (ha : a ≠ []) (haSlash : '/' ∉ a)
    (haDots : a ≠ ['.'] ∧ a ≠ ['.', '.']) (haSafe : urlSafe a)
    (hv : v ≠ []) (hvSlash : '/' ∉ v)
    (hvDots : v ≠ ['.'] ∧ v ≠ ['.', '.']) (hvSafe : urlSafe v)
    (hcls : ∀ c, cls = some c → '/' ∉ c ∧ urlSafe c)
    (hextSlash : '/' ∉ ext) (hextSafe : urlSafe ext) :
    get_artifact_url (pre ++ host ++ '/' :: bp) g a v cls ext =
      (pre ++ host ++ '/' :: bp) ++ pyReplace '.' '/' g ++ '/' :: a ++
        '/' :: v ++
        '/' :: (a ++ '-' :: v ++ classifierPart cls ++ '.' :: ext) := by
  have hcolon : ':' ∉ pyReplace '.' '/' g :=
    not_mem_pyReplace_of g hgColon (by decide)
  have hdash : '-' ∈ a ++ '-' :: v ++ classifierPart cls ++ '.' :: ext :=
    List.mem_append.mpr (Or.inl (List.mem_append.mpr (Or.inl
      (List.mem_append.mpr (Or.inr (List.mem_cons_self _ _))))))
  have hfnSlash : '/' ∉ a ++ '-' :: v ++ classifierPart cls ++ '.' :: ext := by
    intro hm
    rcases mem_filename hm with h | h | h | h | h | ⟨cl, hcl, h⟩
    · exact absurd h (by decide)
    · exact absurd h (by decide)
    · exact haSlash h
    · exact hvSlash h
    · exact hextSlash h
    · exact (hcls cl hcl).1 h
  have hfnDots : (a ++ '-' :: v ++ classifierPart cls ++ '.' :: ext) ≠ ['.'] ∧
      (a ++ '-' :: v ++ classifierPart cls ++ '.' :: ext) ≠ ['.', '.'] := by
    constructor
    · intro he
      rw [he] at hdash
      exact absurd hdash (by decide)
    · intro he
      rw [he] at hdash
      exact absurd hdash (by decide)
  have hrelSplit : splitOnChar '/'
      (pyReplace '.' '/' g ++ '/' :: a ++ '/' :: v ++
        '/' :: (a ++ '-' :: v ++ classifierPart cls ++ '.' :: ext)) =
      splitOnChar '.' g ++
        [a, v, a ++ '-' :: v ++ classifierPart cls ++ '.' :: ext] := by
    rw [splitOnChar_append_sep_general, splitOnChar_append_sep_general,
      splitOnChar_append_sep_general]
    rw [splitOnChar_pyReplace hgSlash, splitOnChar_of_not_mem '/' haSlash,
      splitOnChar_of_not_mem '/' hvSlash, splitOnChar_of_not_mem '/' hfnSlash]
    simp
  have hrelNil : pyReplace '.' '/' g ++ '/' :: a ++ '/' :: v ++
      '/' :: (a ++ '-' :: v ++ classifierPart cls ++ '.' :: ext) ≠ [] := by
    simp
  have hrelScan : schemeScan
      (pyReplace '.' '/' g ++ '/' :: a ++ '/' :: v ++
        '/' :: (a ++ '-' :: v ++ classifierPart cls ++ '.' :: ext)) = none := by
    have he : pyReplace '.' '/' g ++ '/' :: a ++ '/' :: v ++
        '/' :: (a ++ '-' :: v ++ classifierPart cls ++ '.' :: ext) =
        pyReplace '.' '/' g ++ '/' ::
          (a ++ '/' :: v ++
            '/' :: (a ++ '-' :: v ++ classifierPart cls ++ '.' :: ext)) := by
      simp
    rw [he]
    exact schemeScan_append_slash _ hcolon
  have hrelMid : ∀ seg ∈ (splitOnChar '/'
      (pyReplace '.' '/' g ++ '/' :: a ++ '/' :: v ++
        '/' :: (a ++ '-' :: v ++ classifierPart cls ++ '.' :: ext))).dropLast,
      seg ≠ [] := by
    rw [hrelSplit]
    have he : splitOnChar '.' g ++
        [a, v, a ++ '-' :: v ++ classifierPart cls ++ '.' :: ext] =
        (splitOnChar '.' g ++ [a, v]) ++
          [a ++ '-' :: v ++ classifierPart cls ++ '.' :: ext] := by
      simp
    rw [he, List.dropLast_concat]
    intro seg hs
    rcases List.mem_append.mp hs with h | h
    · exact hg seg h
    · rcases List.mem_cons.mp h with h | h
      · subst h; exact ha
      · rcases List.mem_cons.mp h with h | h
        · subst h; exact hv
        · exact absurd h (List.not_mem_nil seg)
  have hrelDots : ∀ seg ∈ splitOnChar '/'
      (pyReplace '.' '/' g ++ '/' :: a ++ '/' :: v ++
        '/' :: (a ++ '-' :: v ++ classifierPart cls ++ '.' :: ext)),
      seg ≠ ['.'] ∧ seg ≠ ['.', '.'] := by
    rw [hrelSplit]
    intro seg hs
    rcases List.mem_append.mp hs with h | h
    · have hdot := not_mem_of_mem_splitOnChar '.' g seg h
      constructor
      · intro he
        rw [he] at hdot
        exact hdot (List.mem_cons_self _ _)
      · intro he
        rw [he] at hdot
        exact hdot (List.mem_cons_self _ _)
    · rcases List.mem_cons.mp h with h | h
      · subst h; exact haDots
      · rcases List.mem_cons.mp h with h | h
        · subst h; exact hvDots
        · rcases List.mem_cons.mp h with h | h
          · subst h; exact hfnDots
          · exact absurd h (List.not_mem_nil seg)
  have hrelHead : (pyReplace '.' '/' g ++ '/' :: a ++ '/' :: v ++
      '/' :: (a ++ '-' :: v ++ classifierPart cls ++ '.' :: ext)).head? ≠
      some '/' := by
    cases hge : g with
    | nil =>
      exfalso
      exact hg [] (by rw [hge]; simp [splitOnChar]) rfl
    | cons x xt =>
      have hx1 : x ≠ '.' := by
        intro hxe
        refine hg [] ?_ rfl
        rw [hge, hxe]
        simp [splitOnChar]
      have hx2 : x ≠ '/' := by
        intro hxe
        refine hgSlash ?_
        rw [hge, hxe]
        exact List.mem_cons_self _ _
      have h3 : pyReplace '.' '/' (x :: xt) ≠ [] := by
        rw [pyReplace_cons]
        exact List.cons_ne_nil _ _
      have h4 : pyReplace '.' '/' (x :: xt) ++ '/' :: a ≠ [] := by simp
      have h5 : pyReplace '.' '/' (x :: xt) ++ '/' :: a ++ '/' :: v ≠ [] := by
        simp
      rw [head?_append_of_ne_nil _ h5, head?_append_of_ne_nil _ h4,
          head?_append_of_ne_nil _ h3]
      rw [pyReplace_cons, if_neg hx1]
      simp [hx2]
  rcases hpre with hp | hp
  · rw [hp]
    simp only [get_artifact_url]
    rw [urljoin_clean ("https://".toList) ("https".toList) host bp _
        (fun t => splitScheme_https t) (by decide) (by decide) (by decide)
        (by decide) hhost hhostSlash hlastbp hbpMid hbpDots hrelScan hrelHead
        hrelNil hrelMid hrelDots]
    simp [List.append_assoc]
  · rw [hp]
    simp only [get_artifact_url]
    rw [urljoin_clean ("http://".toList) ("http".toList) host bp _
        (fun t => splitScheme_http t) (by decide) (by decide) (by decide)
        (by decide) hhost hhostSlash hlastbp hbpMid hbpDots hrelScan hrelHead
        hrelNil hrelMid hrelDots]
    simp [List.append_assoc]

theorem get_artifact_url_spec_witness :
    ("https://".toList = ("https://").toList ∨
        "https://".toList = ("http://").toList) ∧
      get_artifact_url ("https://".toList ++ "r".toList ++ '/' :: "m2/".toList)
          ("a.b".toList) ("c".toList) ("1".toList)
          (some ("sources".toList)) ("jar".toList) =
        ("https://".toList ++ "r".toList ++ '/' :: "m2/".toList) ++
          pyReplace '.' '/' ("a.b".toList) ++ '/' :: "c".toList ++
          '/' :: "1".toList ++
          '/' :: ("c".toList ++ '-' :: "1".toList ++
            classifierPart (some ("sources".toList)) ++ '.' :: "jar".toList) :=
  ⟨Or.inl rfl,
   get_artifact_url_spec ("https://".toList) ("r".toList) ("m2/".toList)
     ("a.b".toList) ("c".toList) ("1".toList) ("jar".toList)
     (some ("sources".toList)) (Or.inl rfl) (by decide) (by decide)
     (by decide) (by decide) (by decide) (by decide) (by decide) (by decide)
     (by decide) (by decide) (by decide) (by decide) (by decide) (by decide)
     (by decide) (by decide) (by decide) (by decide) (by decide)
     (fun c hc => by
       injection hc with h
       subst h
       exact ⟨by decide, by decide⟩)
     (by decide) (by decide)⟩

/-! ## Claim C1: first-match repository resolution -/

theorem sourcesLoop_first_hit (env : NetEnv) (g a v od : List Char) :
    ∀ (repos : List (List Char)) (tr : Trace) (A : List Char),
      repos.find?
          (fun r => check_artifact_exists (env.headOf (sourcesUrl r g a v))) =
        some A →
      env.getOk (sourcesUrl A g a v) = true →
      sourcesLoop env g a v od repos tr =
        (some (sourcesOutPath od g a v),
         ⟨tr.downloads ++ [sourcesUrl A g a v],
          tr.writes ++ [sourcesOutPath od g a v]⟩) := by
  intro repos
  induction repos with
  | nil =>
    intro tr A hfind _
    simp [List.find?] at hfind
  | cons r rest ih =>
    intro tr A hfind hget
    by_cases hc : check_artifact_exists (env.headOf (sourcesUrl r g a v)) = true
    · simp only [List.find?, hc] at hfind
      injection hfind with hA
      subst hA
      simp [sourcesLoop, hc, download_file, hget]
    · have hcb : check_artifact_exists (env.headOf (sourcesUrl r g a v)) = false := by
        simpa using hc
      simp only [List.find?, hcb] at hfind
      simp only [sourcesLoop, hcb, Bool.false_eq_true, if_false]
      exact ih tr A hfind hget

/-- C1: `download_sources` probes the repositories one at a time in list
order; with A the first repository whose existence check for the
sources artifact succeeds (and whose download goes through), the
returned path is A's download, and A's URL is the only URL fetched — in
particular never a later repository's, even one that also hosts the
artifact. -/
theorem download_sources_first_match (env : NetEnv)
    (repositories : List (List Char)) (dependency od : List Char)
    (tr : Trace) (g a v A : List Char)
    (hparse : parse_dependency dependency = .ok ⟨g, a, v⟩)
    (hfind : repositories.find?
        (fun r => check_artifact_exists (env.headOf (sourcesUrl r g a v))) =
      some A)
    (hget : env.getOk (sourcesUrl A g a v) = true) :
    download_sources env repositories dependency od tr =
      (some (sourcesOutPath od g a v),
       ⟨tr.downloads ++ [sourcesUrl A g a v],
        tr.writes ++ [sourcesOutPath od g a v]⟩) := by
  unfold download_sources
  rw [hparse]
  exact sourcesLoop_first_hit env g a v od repositories tr A hfind hget

/-- Witness for C1: with three repositories of which the second and
third host the artifact, the second one is fetched. -/
theorem download_sources_first_match_witness :
    download_sources
        ⟨fun u =>
          if u = sourcesUrl ("x/".toList) ("g".toList) ("a".toList) ("1".toList)
          then HeadResult.response 404 else HeadResult.response 200,
         fun _ => true⟩
        ["x/".toList, "A/".toList, "B/".toList]
        ("g:a:1".toList) ("d".toList) ⟨[], []⟩ =
      (some (sourcesOutPath ("d".toList) ("g".toList) ("a".toList) ("1".toList)),
       ⟨[sourcesUrl ("A/".toList) ("g".toList) ("a".toList) ("1".toList)],
        [sourcesOutPath ("d".toList) ("g".toList) ("a".toList) ("1".toList)]⟩) :=
  download_sources_first_match _ _ _ _ _ _ _ _ _ (by decide) (by decide)
    (by decide)

/-! ## Claim C7: the deterministic local path of a successful download -/

theorem getLast?_append_cons_of_ne_nil {l₂ : List Char} (l₁ : List Char)
    (a : Char) (h : l₂ ≠ []) : (l₁ ++ a :: l₂).getLast? = l₂.getLast? := by
  rw [List.getLast?_append_cons]
  cases l₂ with
  | nil => exact absurd rfl h
  | cons b bt => rw [List.getLast?_cons_cons]

theorem head?_pyReplace (old new : Char) (s : List Char) :
    (pyReplace old new s).head? =
      s.head?.map (fun c => if c = old then new else c) := by
  cases s <;> rfl

theorem getLast?_pyReplace (old new : Char) (s : List Char) :
    (pyReplace old new s).getLast? =
      s.getLast?.map (fun c => if c = old then new else c) := by
  induction s with
  | nil => rfl
  | cons x xs ih =>
    cases xs with
    | nil => rfl
    | cons y yt =>
      simpa [pyReplace, List.getLast?_cons_cons] using ih

theorem pyJoin2_norm {path : List Char} (comp : List Char)
    (hne : path ≠ []) (hlast : path.getLast? ≠ some '/')
    (hhead : comp.head? ≠ some '/') :
    pyJoin2 path comp = path ++ '/' :: comp := by
  unfold pyJoin2
  rw [if_neg hhead, if_neg (fun h => Or.elim h hne hlast)]

theorem pyJoin_coord_norm (od g a v fn : List Char)
    (hod : od ≠ []) (hodl : od.getLast? ≠ some '/')
    (hg : g ≠ []) (hgh : g.head? ≠ some '.') (hghs : g.head? ≠ some '/')
    (hgl : g.getLast? ≠ some '.') (hgls : g.getLast? ≠ some '/')
    (ha : a ≠ []) (hah : a.head? ≠ some '/') (hal : a.getLast? ≠ some '/')
    (hv : v ≠ []) (hvh : v.head? ≠ some '/') (hvl : v.getLast? ≠ some '/')
    (hfn : fn.head? ≠ some '/') :
    pyJoin od [pyReplace '.' '/' g, a, v, fn] =
      od ++ '/' :: pyReplace '.' '/' g ++ '/' :: a ++ '/' :: v ++ '/' :: fn := by
  have hgp_ne : pyReplace '.' '/' g ≠ [] := by
    cases g with
    | nil => exact absurd rfl hg
    | cons gx gt => simp [pyReplace]
  have hgp_head : (pyReplace '.' '/' g).head? ≠ some '/' := by
    rw [head?_pyReplace]
    cases hh : g.head? with
    | none => simp
    | some gx =>
      have h1 : gx ≠ '.' := fun he => hgh (by rw [hh, he])
      have h2 : gx ≠ '/' := fun he => hghs (by rw [hh, he])
      simp [h1, h2]
  have hgp_last : (pyReplace '.' '/' g).getLast? ≠ some '/' := by
    rw [getLast?_pyReplace]
    cases hh : g.getLast? with
    | none => simp
    | some gx =>
      have h1 : gx ≠ '.' := fun he => hgl (by rw [hh, he])
      have h2 : gx ≠ '/' := fun he => hgls (by rw [hh, he])
      simp [h1, h2]
  unfold pyJoin
  simp only [List.foldl_cons, List.foldl_nil]
  rw [pyJoin2_norm _ hod hodl hgp_head]
  rw [pyJoin2_norm _ (by simp) (by
    rw [getLast?_append_cons_of_ne_nil od '/' hgp_ne]
    exact hgp_last) hah]
  rw [pyJoin2_norm _ (by simp) (by
    rw [getLast?_append_cons_of_ne_nil _ '/' ha]
    exact hal) hvh]
  rw [pyJoin2_norm _ (by simp) (by
    rw [getLast?_append_cons_of_ne_nil _ '/' hv]
    exact hvl) hfn]

theorem sourcesLoop_path (env : NetEnv) (g a v od : List Char) :
    ∀ (repos : List (List Char)) (tr : Trace) (p : List Char) (tr' : Trace),
      sourcesLoop env g a v od repos tr = (some p, tr') →
      p = sourcesOutPath od g a v ∧ tr'.writes = tr.writes ++ [p] := by
  intro repos
  induction repos with
  | nil =>
    intro tr p tr' h
    simp [sourcesLoop] at h
  | cons r rest ih =>
    intro tr p tr' h
    by_cases hc : check_artifact_exists (env.headOf (sourcesUrl r g a v)) = true
    · by_cases hget : env.getOk (sourcesUrl r g a v) = true
      · simp [sourcesLoop, hc, download_file, hget] at h
        obtain ⟨hp, htr⟩ := h
        subst hp
        refine ⟨rfl, ?_⟩
        rw [← htr]
      · simp only [sourcesLoop, hc, if_true, download_file, hget,
          Bool.false_eq_true, if_false] at h
        simpa using ih _ p tr' h
    · simp only [sourcesLoop, hc, Bool.false_eq_true, if_false] at h
      exact ih tr p tr' h

theorem binaryLoop_path (env : NetEnv) (g a v od : List Char) :
    ∀ (repos : List (List Char)) (tr : Trace) (p : List Char) (tr' : Trace),
      binaryLoop env g a v od repos tr = (some p, tr') →
      p = binaryOutPath od g a v ∧ tr'.writes = tr.writes ++ [p] := by
  intro repos
  induction repos with
  | nil =>
    intro tr p tr' h
    simp [binaryLoop] at h
  | cons r rest ih =>
    intro tr p tr' h
    by_cases hc : check_artifact_exists (env.headOf (binaryUrl r g a v)) = true
    · by_cases hget : env.getOk (binaryUrl r g a v) = true
      · simp [binaryLoop, hc, download_file, hget] at h
        obtain ⟨hp, htr⟩ := h
        subst hp
        refine ⟨rfl, ?_⟩
        rw [← htr]
      · simp only [binaryLoop, hc, if_true, download_file, hget,
          Bool.false_eq_true, if_false] at h
        simpa using ih _ p tr' h
    · simp only [binaryLoop, hc, Bool.false_eq_true, if_false] at h
      exact ih tr p tr' h

/-- C7: for a well-formed coordinate and destination root, whenever
`download_sources` (respectively `download_binary`) succeeds, the path
it returns — which is also the path of the file it wrote — is exactly
root/group-with-dots-as-separators/artifact/version/artifact-version-sources.jar
(respectively without the sources suffix). -/
theorem download_roundtrip_path (env : NetEnv)
    (repositories : List (List Char)) (dependency od : List Char) (tr : Trace)
    (g a v p : List Char) (tr' : Trace)
    (hparse : parse_dependency dependency = .ok ⟨g, a, v⟩)
    (hod : od ≠ []) (hodl : od.getLast? ≠ some '/')
    (hg : g ≠ []) (hgh : g.head? ≠ some '.') (hghs : g.head? ≠ some '/')
    (hgl : g.getLast? ≠ some '.') (hgls : g.getLast? ≠ some '/')
    (ha : a ≠ []) (hah : a.head? ≠ some '/') (hal : a.getLast? ≠ some '/')
    (hv : v ≠ []) (hvh : v.head? ≠ some '/') (hvl : v.getLast? ≠ some '/') :
    (download_sources env repositories dependency od tr = (some p, tr') →
      p = od ++ '/' :: pyReplace '.' '/' g ++ '/' :: a ++ '/' :: v ++ '/' ::
          (a ++ '-' :: v ++ "-sources.jar".toList) ∧
      tr'.writes = tr.writes ++ [p]) ∧
    (download_binary env repositories dependency od tr = (some p, tr') →
      p = od ++ '/' :: pyReplace '.' '/' g ++ '/' :: a ++ '/' :: v ++ '/' ::
          (a ++ '-' :: v ++ ".jar".toList) ∧
      tr'.writes = tr.writes ++ [p]) := by
  have hfnS : (a ++ '-' :: v ++ "-sources.jar".toList).head? ≠ some '/' := by
    rw [head?_append_of_ne_nil _ (by simp [ha]), head?_append_of_ne_nil _ ha]
    exact hah
  have hfnB : (a ++ '-' :: v ++ ".jar".toList).head? ≠ some '/' := by
    rw [head?_append_of_ne_nil _ (by simp [ha]), head?_append_of_ne_nil _ ha]
    exact hah
  constructor
  · intro h
    unfold download_sources at h
    rw [hparse] at h
    obtain ⟨hp, hw⟩ := sourcesLoop_path env g a v od repositories tr p tr' h
    refine ⟨?_, hw⟩
    rw [hp]
    exact pyJoin_coord_norm od g a v _ hod hodl hg hgh hghs hgl hgls ha hah hal
      hv hvh hvl hfnS
  · intro h
    unfold download_binary at h
    rw [hparse] at h
    obtain ⟨hp, hw⟩ := binaryLoop_path env g a v od repositories tr p tr' h
    refine ⟨?_, hw⟩
    rw [hp]
    exact pyJoin_coord_norm od g a v _ hod hodl hg hgh hghs hgl hgls ha hah hal
      hv hvh hvl hfnB

/-- Witness for C7 at a concrete successful run. -/
theorem download_roundtrip_path_witness :
    ("d/g/a/1/a-1-sources.jar".toList : List Char) =
        "d".toList ++ '/' :: pyReplace '.' '/' ("g".toList) ++
          '/' :: "a".toList ++ '/' :: "1".toList ++ '/' ::
          ("a".toList ++ '-' :: "1".toList ++ "-sources.jar".toList) ∧
      (Trace.mk [sourcesUrl ("r/".toList) ("g".toList) ("a".toList) ("1".toList)]
          ["d/g/a/1/a-1-sources.jar".toList]).writes =
        ([] : List (List Char)) ++ ["d/g/a/1/a-1-sources.jar".toList] :=
  (download_roundtrip_path
      ⟨fun _ => HeadResult.response 200, fun _ => true⟩
      ["r/".toList] ("g:a:1".toList) ("d".toList) ⟨[], []⟩
      ("g".toList) ("a".toList) ("1".toList)
      ("d/g/a/1/a-1-sources.jar".toList)
      ⟨[sourcesUrl ("r/".toList) ("g".toList) ("a".toList) ("1".toList)],
       ["d/g/a/1/a-1-sources.jar".toList]⟩
      (by decide) (by decide) (by decide) (by decide) (by decide) (by decide)
      (by decide) (by decide) (by decide) (by decide) (by decide) (by decide)
      (by decide) (by decide)).1 (by decide)

/-! ## Claim C5: merged version listing -/

theorem lexLe_total (a : List Char) : ∀ b, lexLe a b = true ∨ lexLe b a = true := by
  induction a with
  | nil => intro b; left; rfl
  | cons x xs ih =>
    intro b
    cases b with
    | nil => right; rfl
    | cons y ys =>
      by_cases hxy : x = y
      · subst hxy
        rcases ih ys with h | h
        · left; simp [lexLe, h]
        · right; simp [lexLe, h]
      · rcases lt_or_gt_of_ne hxy with h | h
        · left; simp [lexLe, hxy, h]
        · right; simp [lexLe, Ne.symm hxy, h]

theorem lexLe_trans (a : List Char) :
    ∀ b c, lexLe a b = true → lexLe b c = true → lexLe a c = true := by
  induction a with
  | nil => intro b c _ _; rfl
  | cons x xs ih =>
    intro b c h1 h2
    cases b with
    | nil => simp [lexLe] at h1
    | cons y ys =>
      cases c with
      | nil => simp [lexLe] at h2
      | cons z zs =>
        by_cases hxy : x = y <;> by_cases hyz : y = z
        · subst hxy
          subst hyz
          simp only [lexLe, if_pos rfl] at h1 h2 ⊢
          exact ih ys zs h1 h2
        · subst hxy
          simp only [lexLe, if_pos rfl, if_neg hyz] at h2 ⊢
          exact h2
        · subst hyz
          simp only [lexLe, if_neg hxy] at h1 ⊢
          exact h1
        · simp only [lexLe, if_neg hxy] at h1
          simp only [lexLe, if_neg hyz] at h2
          have hlt : x < z :=
            lt_trans (of_decide_eq_true h1) (of_decide_eq_true h2)
          simp only [lexLe, if_neg (ne_of_lt hlt)]
          exact decide_eq_true hlt

instance : IsTotal (List Char) descOrder :=
  ⟨fun a b => lexLe_total b a⟩

instance : IsTrans (List Char) descOrder :=
  ⟨fun _ _ _ h1 h2 => lexLe_trans _ _ _ h2 h1⟩

theorem mem_addVersions (x : List Char) :
    ∀ (vs acc : List (List Char)),
      (x ∈ addVersions acc vs ↔ x ∈ acc ∨ (x ≠ [] ∧ x ∈ vs)) := by
  intro vs
  induction vs with
  | nil =>
    intro acc
    simp [addVersions]
  | cons v vt ih =>
    intro acc
    rw [addVersions, ih]
    by_cases h : v ≠ [] ∧ v ∉ acc
    · rw [if_pos h]
      simp only [List.mem_append, List.mem_cons, List.not_mem_nil, or_false]
      constructor
      · rintro ((hx | hx) | ⟨hne, hx⟩)
        · exact Or.inl hx
        · exact Or.inr ⟨hx ▸ h.1, Or.inl hx⟩
        · exact Or.inr ⟨hne, Or.inr hx⟩
      · rintro (hx | ⟨hne, hx | hx⟩)
        · exact Or.inl (Or.inl hx)
        · exact Or.inl (Or.inr hx)
        · exact Or.inr ⟨hne, hx⟩
    · rw [if_neg h]
      push_neg at h
      simp only [List.mem_cons]
      constructor
      · rintro (hx | ⟨hne, hx⟩)
        · exact Or.inl hx
        · exact Or.inr ⟨hne, Or.inr hx⟩
      · rintro (hx | ⟨hne, hx | hx⟩)
        · exact Or.inl hx
        · exact Or.inl (hx ▸ h (hx ▸ hne))
        · exact Or.inr ⟨hne, hx⟩

theorem nodup_addVersions :
    ∀ (vs acc : List (List Char)), acc.Nodup → (addVersions acc vs).Nodup := by
  intro vs
  induction vs with
  | nil =>
    intro acc h
    simpa [addVersions] using h
  | cons v vt ih =>
    intro acc h
    rw [addVersions]
    by_cases hc : v ≠ [] ∧ v ∉ acc
    · rw [if_pos hc]
      exact ih _ (by simp [List.nodup_append, h, hc.2])
    · rw [if_neg hc]
      exact ih _ h

theorem mem_collectVersions (x : List Char) :
    ∀ (repos : List RepoMeta) (acc : List (List Char)),
      (x ∈ collectVersions acc repos ↔
        x ∈ acc ∨ (x ≠ [] ∧ ∃ vs, RepoMeta.metadata vs ∈ repos ∧ x ∈ vs)) := by
  intro repos
  induction repos with
  | nil =>
    intro acc
    simp [collectVersions]
  | cons r rt ih =>
    intro acc
    cases r with
    | unavailable =>
      rw [collectVersions, ih]
      simp only [List.mem_cons]
      constructor
      · rintro (hx | ⟨hne, vs, hvs, hx⟩)
        · exact Or.inl hx
        · exact Or.inr ⟨hne, vs, Or.inr hvs, hx⟩
      · rintro (hx | ⟨hne, vs, hvs | hvs, hx⟩)
        · exact Or.inl hx
        · exact absurd hvs (by simp)
        · exact Or.inr ⟨hne, vs, hvs, hx⟩
    | metadata vs =>
      rw [collectVersions, ih, mem_addVersions]
      simp only [List.mem_cons]
      constructor
      · rintro ((hx | ⟨hne, hx⟩) | ⟨hne, vs2, hvs, hx⟩)
        · exact Or.inl hx
        · exact Or.inr ⟨hne, vs, Or.inl rfl, hx⟩
        · exact Or.inr ⟨hne, vs2, Or.inr hvs, hx⟩
      · rintro (hx | ⟨hne, vs2, hvs | hvs, hx⟩)
        · exact Or.inl (Or.inl hx)
        · exact Or.inl (Or.inr ⟨hne, by rw [RepoMeta.metadata.injEq] at hvs; exact hvs ▸ hx⟩)
        · exact Or.inr ⟨hne, vs2, hvs, hx⟩

theorem nodup_collectVersions :
    ∀ (repos : List RepoMeta) (acc : List (List Char)),
      acc.Nodup → (collectVersions acc repos).Nodup := by
  intro repos
  induction repos with
  | nil =>
    intro acc h
    simpa [collectVersions] using h
  | cons r rt ih =>
    intro acc h
    cases r with
    | unavailable => rw [collectVersions]; exact ih _ h
    | metadata vs => rw [collectVersions]; exact ih _ (nodup_addVersions vs acc h)

/-- C5 counterexample: with one repository reporting only 9.0 and a
second reporting only 10.0, the merged listing is [9.0, 10.0] — the
semantically newest version (10.0) is last, not first, because the sort
is plain descending string order, not a semantic one. -/
theorem find_available_versions_not_newest_first_cex :
    find_available_versions
        [RepoMeta.metadata ["9.0".toList], RepoMeta.metadata ["10.0".toList]] =
      ["9.0".toList, "10.0".toList] ∧
    semanticallyNewer ("10.0".toList) ("9.0".toList) = true ∧
    (find_available_versions
          [RepoMeta.metadata ["9.0".toList],
           RepoMeta.metadata ["10.0".toList]]).head? ≠
      some ("10.0".toList) := by
  refine ⟨by decide, by decide, by decide⟩

/-- C5 amended: `find_available_versions` returns exactly the distinct
non-empty version strings reported by the reachable repositories
(failing repositories contribute nothing), without duplicates, sorted in
descending lexicographic string order — which puts the newest version
first only when string order agrees with semantic recency. -/
theorem find_available_versions_spec (repositories : List RepoMeta) :
    (∀ ver, ver ∈ find_available_versions repositories ↔
      (ver ≠ [] ∧ ∃ vs, RepoMeta.metadata vs ∈ repositories ∧ ver ∈ vs)) ∧
    (find_available_versions repositories).Nodup ∧
    List.Sorted descOrder (find_available_versions repositories) := by
  refine ⟨?_, ?_, ?_⟩
  · intro ver
    unfold find_available_versions
    rw [List.mem_insertionSort, mem_collectVersions]
    simp
  · unfold find_available_versions
    exact ((List.perm_insertionSort descOrder _).nodup_iff).mpr
      (nodup_collectVersions repositories [] List.nodup_nil)
  · exact List.sorted_insertionSort descOrder _

/-! ## Claim C8: failure reporting of the decompilation fallback -/

/-- C8 counterexample: with no cached CFR jar and a failing download,
the decompilation fallback raises (the `raise` in
`_ensure_cfr_available`, run by the constructor) instead of reporting a
None/False failure to the caller. -/
theorem decompile_download_failure_raises_cex :
    decompileFallback ⟨false, false, true, true, CfrRun.exitZero, true⟩
        ("x.jar".toList) ("out".toList) = .exn := by decide

/-- C8 amended: once the decompiler binary is available (cached, or
downloadable on first use), the fallback never raises; every failure
inside `decompile_and_package` — missing input jar, missing Java
runtime, non-zero decompiler exit, decompiler timeout, packaging
failure — is reported to the caller as None.  A CFR download failure,
however, escapes as an exception (see the counterexample). -/
theorem decompile_and_package_failures_are_none (env : DecompEnv)
    (jar_path output_dir : List Char)
    (hbin : env.cfrCached = true ∨ env.cfrDownloadOk = true)
    (hfail : env.javaAvailable = false ∨ env.jarOnDisk = false ∨
      env.cfrRun = CfrRun.exitNonzero ∨ env.cfrRun = CfrRun.timedOut ∨
      env.packagingOk = false) :
    decompileFallback env jar_path output_dir = .ok none := by
  have hens : ensure_cfr_available env = .ok () := by
    unfold ensure_cfr_available
    rcases hbin with h | h <;> simp [h]
  unfold decompileFallback
  rw [hens]
  have hnone : decompile_and_package env jar_path output_dir = none := by
    unfold decompile_and_package decompile_jar create_sources_jar
      check_java_available
    rcases hfail with h | h | h | h | h <;> simp [h]
  rw [hnone]

/-- Witness for the amended C8: a missing Java runtime yields None, not
an exception. -/
theorem decompile_and_package_failures_witness :
    decompileFallback ⟨true, true, false, true, CfrRun.exitZero, true⟩
        ("x.jar".toList) ("out".toList) = .ok none :=
  decompile_and_package_failures_are_none _ _ _ (Or.inl rfl) (Or.inl rfl)
